import Mathlib

/-! # Shallow embedding of the Wellby firmware PPG processing pipeline

This file embeds the signal-processing functions of `src/processing.cpp`
(the PPG → HRV pipeline) as executable Lean definitions and proves
properties about them.

Modelling conventions:

* C `float`/`double` values are modelled by `F`: an exact rational or an
  explicit NaN.  Every arithmetic operation propagates NaN, and a division
  whose denominator is zero produces NaN.  (In the embedded functions every
  zero denominator comes with a zero numerator, so the IEEE-754 result is
  indeed `0/0 = NaN`, never an infinity.)
* The square root of a positive rational is in general irrational, so the
  embedding is parametrised by a function `s : ℚ → ℚ` giving the value of
  `sqrt` on positive arguments; `sqrt 0 = 0` exactly, and `sqrt` of a
  negative argument is NaN, as in IEEE-754.  All theorems below hold for
  every choice of `s`.
* C `int` is modelled as `ℤ` (no claim here depends on 32-bit wraparound,
  and signed overflow is undefined behaviour in C); array positions are
  `ℕ`; output buffers and out-parameters are ordinary return values, with
  a `NULL` return modelled by `Option`.
-/

namespace Processing

/-- A C floating-point value: NaN or an exact rational. -/
inductive F where
  | nan : F
  | val (q : ℚ) : F
deriving DecidableEq, Repr

namespace F

/-- Floating-point addition; NaN propagates. -/
def add : F → F → F
  | val a, val b => val (a + b)
  | _, _ => nan

/-- Floating-point subtraction; NaN propagates. -/
def sub : F → F → F
  | val a, val b => val (a - b)
  | _, _ => nan

/-- Floating-point multiplication; NaN propagates. -/
def mul : F → F → F
  | val a, val b => val (a * b)
  | _, _ => nan

/-- Floating-point division; NaN propagates, and a zero denominator gives
NaN (every zero denominator in the functions embedded here has a zero
numerator, where IEEE-754 also yields NaN). -/
def div : F → F → F
  | val a, val b => if b = 0 then nan else val (a / b)
  | _, _ => nan

/-- Libm `pow(x, n)` for a constant positive integer exponent. -/
def powN (x : F) : ℕ → F
  | 0 => val 1
  | n + 1 => mul x (powN x n)

/-- Libm `sqrt`, parametrised by the rational `s q` standing for the square
root of a positive `q`; `sqrt 0 = 0` exactly and `sqrt` of a negative
argument is NaN. -/
def sqrt (s : ℚ → ℚ) : F → F
  | nan => nan
  | val q => if q < 0 then nan else if q = 0 then val 0 else val (s q)

/-- The C comparison `x < y`: false whenever an operand is NaN. -/
def lt : F → F → Bool
  | val a, val b => decide (a < b)
  | _, _ => false

/-- A C `+=` accumulation over a list of float values, starting at `0`. -/
def sum (l : List F) : F := l.foldl add (val 0)

end F

/-- Embedding of `movingAverageFilter` (processing.cpp, lines 54-68).
For each index `i` the inner loop adds `input[i-j]` for `0 ≤ j <
windowSize` with `i - j ≥ 0` and counts the added terms; the output is
`sum / count`, a float division (so `count = 0` yields `0/0 = NaN` — the
function performs no validation of `windowSize`). -/
def movingAverageFilter (input : List ℚ) (windowSize : ℤ) : List F :=
  (List.range input.length).map fun i =>
    let js := (List.range windowSize.toNat).filter fun j => decide (j ≤ i)
    let s : ℚ := (js.map fun j => input.getD (i - j) 0).sum
    F.div (F.val s) (F.val (js.length : ℚ))

/-- Embedding of `removeZero` (processing.cpp, lines 80-106).  The first
pass counts the non-zero entries (reported through `*newSize`, the second
component), the second pass copies the non-zero entries converted to
float (the first component). -/
def removeZero (input : List ℤ) : List ℚ × ℤ :=
  let count : ℤ := input.foldl (fun c x => if x ≠ 0 then c + 1 else c) 0
  let output : List ℚ :=
    input.foldl (fun (acc : List ℚ) (x : ℤ) => if x ≠ 0 then acc ++ [(x : ℚ)] else acc) []
  (output, count)

/-- Embedding of `pairValley` (processing.cpp, lines 215-227): the loop
body runs for `0 ≤ i < valley_count - 1` and stores the pair
`(valleys[i], valleys[i+1])`. -/
def pairValley (valleys : List ℤ) : List (ℤ × ℤ) :=
  (List.range (valleys.length - 1)).map fun i =>
    (valleys.getD i 0, valleys.getD (i + 1) 0)

/-- Embedding of the basic (void) overload of `eliminateNoiseInTime`
(processing.cpp, lines 133-135).  Its body is empty, so the contents of
the `data` buffer after the call equal the contents before the call; the
returned list models the final contents of `data`. -/
def eliminateNoiseInTimeBasic (data : List ℚ) (fs : ℤ) (ths : List ℚ) (cycle : ℤ) : List ℚ :=
  data

/-- State of the valley-scanning loop of `valleyDetection` (processing.cpp,
lines 161-186): the window of consecutive below-average indices currently
in progress, and the candidate valleys recorded so far. -/
structure VScan where
  window : List ℕ
  valleys : List ℕ

/-- Inner minimum search of `valleyDetection` (lines 176-181): position in
`window` of the first minimal sample value (`min_index` starts at `0` and
is replaced only on a strictly smaller value). -/
def windowMinIndex (dataset : List ℚ) (w : List ℕ) : ℕ :=
  (List.range' 1 (w.length - 1)).foldl
    (fun mi j =>
      if dataset.getD (w.getD j 0) 0 < dataset.getD (w.getD mi 0) 0 then j else mi) 0

/-- Body of the valley-scanning loop of `valleyDetection` (lines 166-186):
skip an above-average sample when no window is open, extend the window on
a below-or-equal sample, and on a transition back above average flush the
window's minimum as a candidate valley. -/
def valleyScanStep (dataset : List ℚ) (avg : ℚ) (st : VScan) (i : ℕ) : VScan :=
  if dataset.getD i 0 > avg ∧ st.window.length < 1 then st
  else if dataset.getD i 0 ≤ avg then ⟨st.window ++ [i], st.valleys⟩
  else if st.window.length > 0 then
    ⟨[], st.valleys ++ [st.window.getD (windowMinIndex dataset st.window) 0]⟩
  else st

/-- Refractory acceptance shared by valley filtering (lines 192-196) and
peak detection (lines 406-409): a candidate is accepted if it is the first
accepted extremum or lies strictly more than `TH` samples after the last
accepted one (C computes the distance with `int` subtraction). -/
def refractoryStep (TH : ℤ) (acc : List ℕ) (v : ℕ) : List ℕ :=
  match acc.getLast? with
  | none => acc ++ [v]
  | some l => if (v : ℤ) - (l : ℤ) > TH then acc ++ [v] else acc

/-- Embedding of `valleyDetection` (processing.cpp, lines 146-204): scan
for candidate valleys below the signal mean, then keep only candidates
further than `TH_elapsed = (int)ceil(min_distance * fs)` samples from the
previously accepted valley. -/
def valleyDetection (dataset : List ℚ) (fs : ℤ) (min_distance : ℚ) : List ℕ :=
  let TH_elapsed : ℤ := (min_distance * (fs : ℚ)).ceil
  let localaverage : ℚ := dataset.sum / (dataset.length : ℚ)
  let candidates :=
    ((List.range dataset.length).foldl (valleyScanStep dataset localaverage) ⟨[], []⟩).valleys
  candidates.foldl (refractoryStep TH_elapsed) []

/-- Body of the peak scan of `thresholdPeakDetection` (lines 397-411): a
sample at `i` is a candidate when it is above the threshold and strictly
greater than both neighbours; candidates then pass the refractory check. -/
def tpdStep (dataset : List ℚ) (thr : ℚ) (TH : ℤ) (acc : List ℕ) (i : ℕ) : List ℕ :=
  if dataset.getD i 0 ≥ thr ∧ dataset.getD i 0 > dataset.getD (i - 1) 0 ∧
      dataset.getD i 0 > dataset.getD (i + 1) 0 then
    refractoryStep TH acc i
  else acc

/-- Embedding of `thresholdPeakDetection` (processing.cpp, lines 378-417):
threshold is the signal mean scaled by `threshold_factor`; the scan runs
over `1 ≤ i ≤ size - 2`.  The list of accepted peaks is unbounded here;
the capacity the C code actually allocates is `maxPeaks` below, and the C
code writes past its buffer when more candidates are accepted. -/
def thresholdPeakDetection (dataset : List ℚ) (fs : ℤ) (threshold_factor : ℚ)
    (min_distance : ℚ) : List ℕ :=
  let local_average : ℚ := dataset.sum / (dataset.length : ℚ) * threshold_factor
  let TH_elapsed : ℤ := (min_distance * (fs : ℚ)).ceil
  (List.range' 1 (dataset.length - 2)).foldl (tpdStep dataset local_average TH_elapsed) []

/-- Capacity of the peak buffer allocated by `thresholdPeakDetection`
(line 381): `max_peaks = size / 10` with C integer division. -/
def maxPeaks (size : ℤ) : ℤ := Int.tdiv size 10

/-- Concrete 20-sample signal alternating between 0 and 2, used to show
the peak buffer capacity can be exceeded. -/
def capacitySignal : List ℚ :=
  [0, 2, 0, 2, 0, 2, 0, 2, 0, 2, 0, 2, 0, 2, 0, 2, 0, 2, 0, 2]

/-- Number of samples of a segment `(start, end)`: C computes
`length = end - start + 1` as an `int` (processing.cpp, line 244). -/
def segLen (p : ℤ × ℤ) : ℤ := p.2 - p.1 + 1

/-- Sample values of a segment, as read by the loops
`for (j = start; j <= end; j++)` of `statisticDetection` (lines 248, 255,
263, 270) and by the copy loop of `eliminateNoiseInTime` (line 348). -/
def segVals (signal : List ℚ) (p : ℤ × ℤ) : List ℚ :=
  (List.range (segLen p).toNat).map fun k => signal.getD (p.1 + (k : ℤ)).toNat 0

/-- Mean of a segment (lines 246-251): float sum divided by the `int`
length (converted to float, so a zero length gives `0/0 = NaN`). -/
def segMean (signal : List ℚ) (p : ℤ × ℤ) : F :=
  F.div (F.val (segVals signal p).sum) (F.val (segLen p : ℚ))

/-- Variance of a segment (lines 253-258): mean of `pow(x - mean, 2)`. -/
def segVariance (signal : List ℚ) (p : ℤ × ℤ) : F :=
  F.div (F.sum ((segVals signal p).map fun x => F.powN (F.sub (F.val x) (segMean signal p)) 2))
    (F.val (segLen p : ℚ))

/-- Standard deviation of a segment (line 259): `sqrt(variance)`. -/
def segStd (s : ℚ → ℚ) (signal : List ℚ) (p : ℤ × ℤ) : F :=
  F.sqrt s (segVariance signal p)

/-- Excess kurtosis of a segment (lines 261-266):
`(fourth_moment / length) / (variance * variance) - 3`, with no guard on
a zero variance. -/
def segKurtosis (signal : List ℚ) (p : ℤ × ℤ) : F :=
  F.sub
    (F.div
      (F.div
        (F.sum ((segVals signal p).map fun x => F.powN (F.sub (F.val x) (segMean signal p)) 4))
        (F.val (segLen p : ℚ)))
      (F.mul (segVariance signal p) (segVariance signal p)))
    (F.val 3)

/-- Skewness of a segment (lines 268-273):
`(third_moment / length) / pow(sqrt(variance), 3)`, with no guard on a
zero variance. -/
def segSkew (s : ℚ → ℚ) (signal : List ℚ) (p : ℤ × ℤ) : F :=
  F.div
    (F.div
      (F.sum ((segVals signal p).map fun x => F.powN (F.sub (F.val x) (segMean signal p)) 3))
      (F.val (segLen p : ℚ)))
    (F.powN (F.sqrt s (segVariance signal p)) 3)

/-- Embedding of `statisticDetection` (processing.cpp, lines 239-275):
the per-segment standard deviations, kurtoses and skewnesses, written to
the three output arrays. -/
def statisticDetection (s : ℚ → ℚ) (signal : List ℚ) (valleys : List (ℤ × ℤ)) :
    List F × List F × List F :=
  (valleys.map (segStd s signal), valleys.map (segKurtosis signal),
    valleys.map (segSkew s signal))

/-- Embedding of `statisticThreshold` (processing.cpp, lines 284-299):
the mean of each statistic over all segments offset by the configured
biases; the result is `(std_ths, kurt_ths, skews_ths[0], skews_ths[1])`. -/
def statisticThreshold (stds kurtosiss skews : List F) (valley_count : ℤ)
    (ths : ℚ × ℚ × ℚ × ℚ) : F × F × F × F :=
  (F.add (F.div (F.sum stds) (F.val (valley_count : ℚ))) (F.val ths.1),
   F.add (F.div (F.sum kurtosiss) (F.val (valley_count : ℚ))) (F.val ths.2.1),
   F.sub (F.div (F.sum skews) (F.val (valley_count : ℚ))) (F.val ths.2.2.1),
   F.add (F.div (F.sum skews) (F.val (valley_count : ℚ))) (F.val ths.2.2.2))

/-- Embedding of the segment overload of `eliminateNoiseInTime`
(processing.cpp, lines 311-361): compute the per-segment statistics and
the adaptive thresholds, collect the indices of segments strictly within
all thresholds (`valid_indices`, lines 329-336; C float comparisons are
false on NaN), and concatenate the samples of those segments (lines
344-351). -/
def eliminateNoiseInTime (s : ℚ → ℚ) (data : List ℚ) (fs : ℤ) (ths : ℚ × ℚ × ℚ × ℚ)
    (cycle : ℤ) (valleys : List (ℤ × ℤ)) : List ℚ :=
  let stats := statisticDetection s data valleys
  let th4 := statisticThreshold stats.1 stats.2.1 stats.2.2 (valleys.length : ℤ) ths
  let valid_indices := (List.range valleys.length).filter fun i =>
    F.lt (stats.1.getD i F.nan) th4.1 && F.lt (stats.2.1.getD i F.nan) th4.2.1 &&
    F.lt th4.2.2.1 (stats.2.2.getD i F.nan) && F.lt (stats.2.2.getD i F.nan) th4.2.2.2
  valid_indices.foldl (fun acc i => acc ++ segVals data (valleys.getD i (0, 0))) []

/-- Retention predicate of the noise-elimination stage phrased directly on
a segment: its own statistics compared against the thresholds computed
from all segments (C float comparisons, false on NaN). -/
def retainSeg (s : ℚ → ℚ) (data : List ℚ) (ths : ℚ × ℚ × ℚ × ℚ)
    (valleys : List (ℤ × ℤ)) (p : ℤ × ℤ) : Bool :=
  let stats := statisticDetection s data valleys
  let th4 := statisticThreshold stats.1 stats.2.1 stats.2.2 (valleys.length : ℤ) ths
  F.lt (segStd s data p) th4.1 && F.lt (segKurtosis data p) th4.2.1 &&
  F.lt th4.2.2.1 (segSkew s data p) && F.lt (segSkew s data p) th4.2.2.2

/-- Embedding of `calcRrIntervals` (processing.cpp, lines 431-458): with
fewer than 2 peaks the result is empty (`NULL` with `*rrCount = 0`);
otherwise the loop over `1 ≤ i < peakCount` computes
`(peaks[i] - peaks[i-1]) * 1000 / fs` (C truncating integer division,
`Int.tdiv`) and keeps the value exactly when it lies in [300, 1500]. -/
def calcRrIntervals (peaks : List ℤ) (fs : ℤ) : List ℤ :=
  if peaks.length < 2 then []
  else
    (List.range' 1 (peaks.length - 1)).foldl
      (fun acc i =>
        if 300 ≤ Int.tdiv ((peaks.getD i 0 - peaks.getD (i - 1) 0) * 1000) fs ∧
            Int.tdiv ((peaks.getD i 0 - peaks.getD (i - 1) 0) * 1000) fs ≤ 1500 then
          acc ++ [Int.tdiv ((peaks.getD i 0 - peaks.getD (i - 1) 0) * 1000) fs]
        else acc) []

/-- Embedding of `calculateHRVMetrics` (processing.cpp, lines 476-515):
`NULL` (with `*metricsCount = 0`) on an empty interval list; otherwise the
triple `(heartRate, sdnn, rmssd)` with `heartRate = 60000 / avgRR`,
`sdnn = sqrt(varianceRR / rrCount)` and
`rmssd = sqrt(sumOfSquares / (rrCount - 1))` — note the divisor
`rrCount - 1`, which is 0 when exactly one interval is present. -/
def calculateHRVMetrics (s : ℚ → ℚ) (rr_intervals : List ℤ) : Option (F × F × F) :=
  if rr_intervals.length = 0 then none
  else
    let n : ℚ := (rr_intervals.length : ℚ)
    let avgRR : F := F.div (F.val (rr_intervals.map fun x => (x : ℚ)).sum) (F.val n)
    let heartRate : F := F.div (F.val 60000) avgRR
    let varianceRR : F :=
      F.sum (rr_intervals.map fun x => F.powN (F.sub (F.val (x : ℚ)) avgRR) 2)
    let sdnn : F := F.sqrt s (F.div varianceRR (F.val n))
    let sumOfSquares : ℚ :=
      ((rr_intervals.zip rr_intervals.tail).map fun p =>
        ((p.2 - p.1 : ℤ) : ℚ) * ((p.2 - p.1 : ℤ) : ℚ)).sum
    let rmssd : F := F.sqrt s (F.div (F.val sumOfSquares) (F.val (n - 1)))
    some (heartRate, sdnn, rmssd)

/-- Copy loop of `removeZero` as a fold, related to `filter`/`map`. -/
theorem removeZero_fold_append (l : List ℤ) (acc : List ℚ) :
    l.foldl (fun (acc : List ℚ) (x : ℤ) => if x ≠ 0 then acc ++ [(x : ℚ)] else acc) acc =
      acc ++ (l.filter fun x => decide (x ≠ 0)).map (fun (x : ℤ) => (x : ℚ)) := by
  induction l generalizing acc with
  | nil => simp
  | cons a t ih =>
    rw [List.foldl_cons, List.filter_cons]
    by_cases h : a = 0
    · rw [if_neg (by simp [h]), if_neg (by simp [h])]
      exact ih acc
    · rw [if_pos h, if_pos (decide_eq_true h), ih (acc ++ [(a : ℚ)]), List.map_cons,
        List.append_assoc, List.singleton_append]

/-- Counting loop of `removeZero` as a fold, related to `filter`. -/
theorem removeZero_fold_count (l : List ℤ) (c : ℤ) :
    l.foldl (fun c x => if x ≠ 0 then c + 1 else c) c =
      c + ((l.filter fun x => decide (x ≠ 0)).length : ℤ) := by
  induction l generalizing c with
  | nil => simp
  | cons a t ih =>
    rw [List.foldl_cons, List.filter_cons]
    by_cases h : a = 0
    · rw [if_neg (by simp [h]), if_neg (by simp [h])]
      exact ih c
    · rw [if_pos h, if_pos (decide_eq_true h), ih (c + 1), List.length_cons]
      push_cast
      ring

/-- C9: `removeZero` returns exactly the non-zero elements of the input,
converted to float, in their original order, and reports the number of
non-zero elements as the new size. -/
theorem removeZero_spec (input : List ℤ) :
    (removeZero input).1 = (input.filter fun x => decide (x ≠ 0)).map (fun (x : ℤ) => (x : ℚ)) ∧
    (removeZero input).2 = ((input.filter fun x => decide (x ≠ 0)).length : ℤ) := by
  constructor
  · have h := removeZero_fold_append input []
    rw [List.nil_append] at h
    exact h
  · have h := removeZero_fold_count input 0
    rw [zero_add] at h
    exact h

/-- C7: `pairValley` on a valley list produces exactly the list of pairs
of consecutive valleys (`valleys.zip valleys.tail`), hence `max(N-1, 0)`
segments (truncated subtraction on `ℕ` is exactly `max(N-1, 0)`); with 0
or 1 valleys it produces zero segments. -/
theorem pairValley_spec (valleys : List ℤ) :
    pairValley valleys = valleys.zip valleys.tail ∧
    (pairValley valleys).length = valleys.length - 1 := by
  have main : ∀ v : List ℤ, pairValley v = v.zip v.tail := by
    intro v
    induction v with
    | nil => rfl
    | cons a t ih =>
      cases t with
      | nil => rfl
      | cons b t' =>
        have step : pairValley (a :: b :: t') = (a, b) :: pairValley (b :: t') := by
          simp [pairValley, List.range_succ_eq_map, List.map_map, Function.comp_def]
        rw [step, ih]
        rfl
  refine ⟨main valleys, ?_⟩
  rw [main valleys]
  cases valleys with
  | nil => rfl
  | cons a t => simp [List.length_zip]

/-- C10: the basic (void) overload of `eliminateNoiseInTime` is a no-op —
for every input the data buffer is left completely unchanged. -/
theorem eliminateNoiseInTimeBasic_noop (data : List ℚ) (fs : ℤ) (ths : List ℚ) (cycle : ℤ) :
    eliminateNoiseInTimeBasic data fs ths cycle = data := rfl

section

set_option allowUnsafeReducibility true

attribute [local semireducible] Rat.add Rat.mul Rat.sub Rat.inv

/-- C6: `movingAverageFilter` does not reject a non-positive window size;
with `windowSize = 0` and input `[1, 2]` every output sample is the float
division `0/0 = NaN`, so computation proceeds instead of an eager
configuration-error rejection. -/
theorem movingAverageFilter_no_rejection :
    movingAverageFilter [1, 2] 0 = [F.nan, F.nan] := by decide

end

/-- Galois characterisation of the executable `Rat.ceil`. -/
theorem rat_ceil_le (q : ℚ) (z : ℤ) : q.ceil ≤ z ↔ q ≤ (z : ℚ) := by
  rw [Rat.ceil]
  split
  · next h =>
    have hq : q = (q.num : ℚ) := by
      conv_lhs => rw [← Rat.num_div_den q]
      rw [h]
      simp
    constructor
    · intro hle
      rw [hq]
      exact_mod_cast hle
    · intro hle
      rw [hq] at hle
      exact_mod_cast hle
  · next h =>
    have hfl : q.num / (q.den : ℤ) = ⌊q⌋ := Rat.floor_def.symm
    rw [hfl]
    have hnotint : q ≠ (z : ℚ) := by
      intro hz
      apply h
      rw [hz, Rat.den_intCast]
    constructor
    · intro hle
      have hlt : ⌊q⌋ < z := by omega
      exact le_of_lt (Int.floor_lt.mp hlt)
    · intro hle
      have hlt : q < (z : ℚ) := lt_of_le_of_ne hle hnotint
      have := Int.floor_lt.mpr hlt
      omega

/-- The executable `Rat.ceil` agrees with the mathematical ceiling. -/
theorem rat_ceil_eq_ceil (q : ℚ) : q.ceil = ⌈q⌉ := by
  apply le_antisymm
  · exact (rat_ceil_le q ⌈q⌉).mpr (Int.le_ceil q)
  · exact Int.ceil_le.mpr ((rat_ceil_le q q.ceil).mp le_rfl)

/-- A left fold preserves any invariant its step function preserves. -/
theorem foldl_invariant {α β : Type} (P : α → Prop) (f : α → β → α)
    (hf : ∀ a b, P a → P (f a b)) : ∀ (l : List β) (a : α), P a → P (l.foldl f a)
  | [], _, ha => ha
  | b :: t, a, ha => foldl_invariant P f hf t (f a b) (hf a b ha)

/-- One refractory acceptance step preserves the gap invariant. -/
theorem refractoryStep_chain (TH : ℤ) (acc : List ℕ) (v : ℕ)
    (h : List.Chain' (fun a b : ℕ => (b : ℤ) - (a : ℤ) > TH) acc) :
    List.Chain' (fun a b : ℕ => (b : ℤ) - (a : ℤ) > TH) (refractoryStep TH acc v) := by
  unfold refractoryStep
  cases hl : acc.getLast? with
  | none =>
    have hacc : acc = [] := List.getLast?_eq_none_iff.mp hl
    subst hacc
    exact List.chain'_singleton v
  | some l =>
    show List.Chain' _ (if (v : ℤ) - (l : ℤ) > TH then acc ++ [v] else acc)
    by_cases hgt : (v : ℤ) - (l : ℤ) > TH
    · rw [if_pos hgt]
      refine List.chain'_append.mpr ⟨h, List.chain'_singleton v, ?_⟩
      intro x hx y hy
      have hx' : x = l := by
        rw [hl] at hx
        exact (Option.some_inj.mp hx).symm
      have hy' : y = v := by
        simp only [List.head?_cons, Option.mem_def, Option.some_inj] at hy
        exact hy.symm
      rw [hx', hy']
      exact hgt
    · rw [if_neg hgt]
      exact h

/-- One step of the peak scan preserves the gap invariant. -/
theorem tpdStep_chain (dataset : List ℚ) (thr : ℚ) (TH : ℤ) (acc : List ℕ) (i : ℕ)
    (h : List.Chain' (fun a b : ℕ => (b : ℤ) - (a : ℤ) > TH) acc) :
    List.Chain' (fun a b : ℕ => (b : ℤ) - (a : ℤ) > TH) (tpdStep dataset thr TH acc i) := by
  unfold tpdStep
  split
  · exact refractoryStep_chain TH acc i h
  · exact h

/-- C3: refractory invariant — any two consecutive indices in the output
of `valleyDetection`, and any two consecutive indices in the output of
`thresholdPeakDetection`, differ by strictly more than
`ceil(min_distance * fs)` samples; the first accepted extremum is exempt
(`Chain'` constrains only consecutive pairs). -/
theorem detection_refractory_invariant (dataset : List ℚ) (fs : ℤ)
    (threshold_factor min_distance : ℚ) :
    List.Chain' (fun a b : ℕ => (b : ℤ) - (a : ℤ) > ⌈min_distance * (fs : ℚ)⌉)
      (valleyDetection dataset fs min_distance) ∧
    List.Chain' (fun a b : ℕ => (b : ℤ) - (a : ℤ) > ⌈min_distance * (fs : ℚ)⌉)
      (thresholdPeakDetection dataset fs threshold_factor min_distance) := by
  rw [← rat_ceil_eq_ceil]
  unfold valleyDetection thresholdPeakDetection
  constructor
  · exact foldl_invariant _ _ (refractoryStep_chain _) _ [] List.chain'_nil
  · exact foldl_invariant _ _ (tpdStep_chain dataset _ _) _ [] List.chain'_nil

/-- Unfolding of `pow(x, 2)` in the float model. -/
theorem F.powN_two (x : F) : F.powN x 2 = F.mul x (F.mul x (F.val 1)) := rfl

/-- C1: on exactly one RR interval `x > 0`, `calculateHRVMetrics` returns
heart rate `60000 / x` and SDNN `0`, but its RMSSD is the NaN produced by
the unguarded division `0 / (rrCount - 1) = 0/0` — an undefined
floating-point value, not a defined unavailability marker. -/
theorem calculateHRVMetrics_single_interval (s : ℚ → ℚ) (x : ℤ) (hx : 0 < x) :
    calculateHRVMetrics s [x] = some (F.val (60000 / (x : ℚ)), F.val 0, F.nan) := by
  have hx0 : (x : ℚ) ≠ 0 := by exact_mod_cast hx.ne'
  simp [calculateHRVMetrics, F.div, F.sub, F.add, F.sum, F.sqrt, F.powN_two, F.mul, hx0]

/-- A fold that appends `g i` whenever `P (g i)` holds is a
filtered map. -/
theorem foldl_guard_append {α β : Type} (g : α → β) (P : β → Prop) [DecidablePred P] :
    ∀ (l : List α) (acc : List β),
      l.foldl (fun acc i => if P (g i) then acc ++ [g i] else acc) acc =
        acc ++ (l.map g).filter fun b => decide (P b) := by
  intro l
  induction l with
  | nil =>
    intro acc
    simp
  | cons a t ih =>
    intro acc
    rw [List.foldl_cons, List.map_cons, List.filter_cons]
    by_cases h : P (g a)
    · rw [if_pos h, ih, if_pos (decide_eq_true h), List.append_assoc, List.singleton_append]
    · rw [if_neg h, ih, if_neg (by simpa using h)]

/-- C4: `calcRrIntervals` returns, in order, exactly the consecutive-pair
intervals `(index_j - index_i) * 1000 / fs` (C truncating division) that
lie in [300, 1500] inclusive — out-of-range values are discarded, not
clamped — and with fewer than 2 peaks the output is the empty list. -/
theorem calcRrIntervals_spec (peaks : List ℤ) (fs : ℤ) (hfs : 0 < fs) :
    calcRrIntervals peaks fs =
      ((peaks.zip peaks.tail).map fun p => Int.tdiv ((p.2 - p.1) * 1000) fs).filter
        (fun rr => decide (300 ≤ rr ∧ rr ≤ 1500)) ∧
    (peaks.length < 2 → calcRrIntervals peaks fs = []) := by
  constructor
  · unfold calcRrIntervals
    by_cases h : peaks.length < 2
    · rw [if_pos h]
      match peaks, h with
      | [], _ => rfl
      | [a], _ => rfl
    · rw [if_neg h]
      rw [foldl_guard_append
        (fun i => Int.tdiv ((peaks.getD i 0 - peaks.getD (i - 1) 0) * 1000) fs)
        (fun rr => 300 ≤ rr ∧ rr ≤ 1500) (List.range' 1 (peaks.length - 1)) [],
        List.nil_append]
      congr 1
      apply List.ext_getElem
      · simp [List.length_zip]
      · intro i h1 h2
        simp only [List.getElem_map, List.getElem_range', List.getElem_zip, List.getElem_tail]
        have e1 : 1 + 1 * i - 1 = i := by omega
        have e2 : 1 + 1 * i = i + 1 := by omega
        rw [e1, e2]
        have hlen : i + 1 < peaks.length := by
          simp [List.length_range'] at h1
          omega
        rw [List.getD_eq_getElem peaks 0 hlen,
          List.getD_eq_getElem peaks 0 (Nat.lt_of_succ_lt hlen)]
  · intro h
    unfold calcRrIntervals
    rw [if_pos h]

/-- A fold that appends `f i` at each element is `bind`. -/
theorem foldl_append_eq_bind {α β : Type} (f : α → List β) :
    ∀ (l : List α) (acc : List β), l.foldl (fun acc i => acc ++ f i) acc = acc ++ l.flatMap f := by
  intro l
  induction l with
  | nil =>
    intro acc
    simp
  | cons a t ih =>
    intro acc
    rw [List.foldl_cons, ih, List.flatMap_cons, List.append_assoc]

/-- Reading a mapped list below its length with any default. -/
theorem getD_map_lt {α β : Type} (f : α → β) (l : List α) (d : α) (d2 : β) (i : ℕ)
    (h : i < l.length) : (l.map f).getD i d2 = f (l.getD i d) := by
  rw [List.getD_eq_getElem (l.map f) d2 (by simpa using h), List.getD_eq_getElem l d h,
    List.getElem_map]

/-- Filtering and binding over successors of a list of indices. -/
theorem map_succ_filter_bind {β : Type} (q : ℕ → Bool) (g : ℕ → List β) :
    ∀ l : List ℕ,
      ((l.map Nat.succ).filter q).flatMap g =
        (l.filter fun i => q (i + 1)).flatMap fun i => g (i + 1) := by
  intro l
  induction l with
  | nil => rfl
  | cons a t ih =>
    rw [List.map_cons, List.filter_cons, List.filter_cons]
    by_cases h : q (a + 1)
    · rw [if_pos (show q a.succ = true from h), if_pos h, List.flatMap_cons, List.flatMap_cons, ih]
    · rw [if_neg (show ¬q a.succ = true from h), if_neg h, ih]

/-- An index-based filter-and-concatenate over `List.range l.length`,
reading `l` through `getD`, is a direct filter-and-bind over `l`. -/
theorem range_filter_getD_bind {α β : Type} (p : α → Bool) (f : α → List β) (d : α) :
    ∀ l : List α,
      (((List.range l.length).filter fun i => p (l.getD i d)).flatMap fun i => f (l.getD i d)) =
        (l.filter p).flatMap f := by
  intro l
  induction l with
  | nil => rfl
  | cons a t ih =>
    rw [List.length_cons, List.range_succ_eq_map, List.filter_cons, List.filter_cons]
    by_cases h : p a
    · rw [if_pos (show p ((a :: t).getD 0 d) = true from h), if_pos h, List.flatMap_cons,
        List.flatMap_cons, map_succ_filter_bind]
      show f a ++ (((List.range t.length).filter fun i => p (t.getD i d)).flatMap
          fun i => f (t.getD i d)) = f a ++ (t.filter p).flatMap f
      rw [ih]
    · rw [if_neg (show ¬p ((a :: t).getD 0 d) = true from h), if_neg h, map_succ_filter_bind]
      show (((List.range t.length).filter fun i => p (t.getD i d)).flatMap
          fun i => f (t.getD i d)) = (t.filter p).flatMap f
      rw [ih]

/-- C5: a segment is retained by `eliminateNoiseInTime` exactly when its
standard deviation is strictly below the std threshold, its kurtosis is
strictly below the kurtosis threshold, and its skewness lies strictly
between the low and high skew thresholds (`retainSeg`, with C float
comparisons); the output is the concatenation of the retained segments'
sample ranges in original segment order — in particular the empty list,
not a failure, when no segment survives. -/
theorem eliminateNoiseInTime_retention (s : ℚ → ℚ) (data : List ℚ) (fs : ℤ)
    (ths : ℚ × ℚ × ℚ × ℚ) (cycle : ℤ) (valleys : List (ℤ × ℤ)) :
    eliminateNoiseInTime s data fs ths cycle valleys =
      (valleys.filter (retainSeg s data ths valleys)).flatMap (segVals data) := by
  simp only [eliminateNoiseInTime, statisticDetection]
  rw [foldl_append_eq_bind, List.nil_append]
  have hcong : ∀ i ∈ List.range valleys.length,
      (F.lt ((valleys.map (segStd s data)).getD i F.nan)
          (statisticThreshold (valleys.map (segStd s data)) (valleys.map (segKurtosis data))
            (valleys.map (segSkew s data)) (valleys.length : ℤ) ths).1 &&
        F.lt ((valleys.map (segKurtosis data)).getD i F.nan)
          (statisticThreshold (valleys.map (segStd s data)) (valleys.map (segKurtosis data))
            (valleys.map (segSkew s data)) (valleys.length : ℤ) ths).2.1 &&
        F.lt (statisticThreshold (valleys.map (segStd s data)) (valleys.map (segKurtosis data))
            (valleys.map (segSkew s data)) (valleys.length : ℤ) ths).2.2.1
          ((valleys.map (segSkew s data)).getD i F.nan) &&
        F.lt ((valleys.map (segSkew s data)).getD i F.nan)
          (statisticThreshold (valleys.map (segStd s data)) (valleys.map (segKurtosis data))
            (valleys.map (segSkew s data)) (valleys.length : ℤ) ths).2.2.2) =
        retainSeg s data ths valleys (valleys.getD i (0, 0)) := by
    intro i hi
    have hi' : i < valleys.length := List.mem_range.mp hi
    simp only [retainSeg, statisticDetection]
    rw [getD_map_lt (segStd s data) valleys (0, 0) F.nan i hi',
      getD_map_lt (segKurtosis data) valleys (0, 0) F.nan i hi',
      getD_map_lt (segSkew s data) valleys (0, 0) F.nan i hi']
  rw [List.filter_congr hcong]
  exact range_filter_getD_bind (retainSeg s data ths valleys) (segVals data) (0, 0) valleys

section

set_option allowUnsafeReducibility true

attribute [local semireducible] Rat.add Rat.mul Rat.sub Rat.inv

/-- C2: `statisticDetection` performs the higher-moment divisions by zero
variance unguarded — on the one-sample signal `[5]` with the single
length-1 segment `(0, 0)` the standard deviation is 0 while kurtosis and
skewness are both NaN (`0/0`), not defined fallback values. -/
theorem statisticDetection_nan_on_length1 :
    statisticDetection (fun _ => 0) [5] [(0, 0)] = ([F.val 0], [F.nan], [F.nan]) := by decide

/-- Witness for C1 at the concrete interval list `[800]`. -/
theorem calculateHRVMetrics_single_interval_witness :
    0 < (800 : ℤ) ∧
    calculateHRVMetrics (fun _ => 0) [800] =
      some (F.val (60000 / ((800 : ℤ) : ℚ)), F.val 0, F.nan) :=
  ⟨by decide, calculateHRVMetrics_single_interval (fun _ => 0) 800 (by decide)⟩

/-- Witness for C4 at the concrete peak list `[0, 50, 100]` with
`fs = 100`. -/
theorem calcRrIntervals_spec_witness :
    0 < (100 : ℤ) ∧
    (calcRrIntervals [0, 50, 100] 100 =
      (([(0 : ℤ), 50, 100].zip [(0 : ℤ), 50, 100].tail).map
        fun p => Int.tdiv ((p.2 - p.1) * 1000) 100).filter
          (fun rr => decide (300 ≤ rr ∧ rr ≤ 1500)) ∧
    ([(0 : ℤ), 50, 100].length < 2 → calcRrIntervals [0, 50, 100] 100 = [])) :=
  ⟨by decide, calcRrIntervals_spec [0, 50, 100] 100 (by decide)⟩

/-- C8: on the 20-sample alternating signal, `thresholdPeakDetection`
with `threshold_factor = 0.9` and `min_distance = 0` accepts 9 peaks,
while the buffer the C code allocates before scanning holds only
`maxPeaks 20 = 2` entries — the implicit capacity bound `size / 10` is
violated (the C code writes past its heap buffer). -/
theorem thresholdPeakDetection_exceeds_capacity :
    (thresholdPeakDetection capacitySignal 50 (9 / 10) 0).length = 9 ∧
    maxPeaks (capacitySignal.length : ℤ) = 2 ∧
    ¬ ((thresholdPeakDetection capacitySignal 50 (9 / 10) 0).length : ℤ) ≤
        maxPeaks (capacitySignal.length : ℤ) := by decide

end

end Processing
